import Mathlib

/-!
Verification development for the crude-react reconciliation engine
(`src/lib/jsx-dev-runtime.ts`).  The definitions below are a shallow
embedding of the engine's data model and operations:

* JS `type` values (host tag strings, the text marker, function references)
  become the inductive `Ty`; JS prop values become `Value`; prop objects
  become association lists (`Props`) whose key order models `Object.keys`
  insertion order.
* `updateDom` is modelled as a pure function returning the list of host
  mutations it performs, in order.
* `reconcileChildren` is modelled as structural recursion over the element
  array and the old sibling chain, returning the produced new-fiber chain
  and the deletions pushed onto the pending-deletions list, in push order.
-/

namespace CrudeReact

/-- A fiber/element `type`: in JS either a string (host tag or the
`"TEXT_ELEMENT"` marker) or a function reference; `===` on functions is
reference identity, modelled by a numeric id. -/
inductive Ty where
  | str (s : String)
  | fn (id : Nat)
deriving DecidableEq, Repr

/-- The `"TEXT_ELEMENT"` type marker used by `createTextElement`. -/
def textType : Ty := Ty.str ("TEXT_ELEMENT")

/-- A JS prop value: string, number, or a reference (function/object),
compared by `===` (value equality for primitives, identity for refs). -/
inductive Value where
  | str (s : String)
  | num (n : Int)
  | fnref (id : Nat)
deriving DecidableEq, Repr

/-- A props object: association list in `Object.keys` insertion order. -/
abbrev Props := List (String × Value)

/-- `props[key]`: `undefined` (= `none`) when the key is absent. -/
def lookupProp (p : Props) (k : String) : Option Value :=
  (p.find? (fun kv => kv.1 == k)).map (fun kv => kv.2)

/-- `key in props`. -/
def hasKey (p : Props) (k : String) : Bool :=
  (lookupProp p k).isSome

/-- `Object.keys(props)`. -/
def keysOf (p : Props) : List String :=
  p.map (fun kv => kv.1)

/-- `isEvent`: prop key starts with `"on"`. -/
def isEvent (k : String) : Bool :=
  k.startsWith ("on")

/-- `isProperty`: key is not `"children"` and not an event. -/
def isProperty (k : String) : Bool :=
  (!(k == ("children"))) && (!(isEvent k))

/-- `isNewProp prev next key`: `prev[key] !== next[key]`. -/
def isNewProp (pv nx : Props) (k : String) : Bool :=
  !(lookupProp pv k == lookupProp nx k)

/-- `isGoneProp next key`: `!(key in next)`. -/
def isGoneProp (nx : Props) (k : String) : Bool :=
  !(hasKey nx k)

/-- `prop.toLowerCase().substring(2)`: the event name of a listener key. -/
def eventTypeOf (k : String) : String :=
  (k.toLower).drop 2

/-- One host mutation performed by `updateDom` on a DOM node. -/
inductive DomOp where
  | removeListener (event : String) (handler : Option Value)
  | removeAttr (name : String)
  | setNodeValueNull
  | setNodeValue (v : Option Value)
  | addListener (event : String) (handler : Option Value)
  | setAttr (name : String) (v : Option Value)
deriving DecidableEq, Repr

/-- First loop of `updateDom` (element-node case): remove old properties
and stale/changed event listeners, walking `Object.keys(prevProps)`. -/
def updateDomRemove (pv nx : Props) : List String → List DomOp
  | [] => []
  | k :: ks =>
    (if isEvent k && (isGoneProp nx k || isNewProp pv nx k) then
       [DomOp.removeListener (eventTypeOf k) (lookupProp pv k)]
     else if isProperty k && isGoneProp nx k then
       [DomOp.removeAttr k]
     else []) ++ updateDomRemove pv nx ks

/-- Second loop of `updateDom` (element-node case): add new listeners and
set new/changed properties, walking `Object.keys(nextProps)`. -/
def updateDomAdd (pv nx : Props) : List String → List DomOp
  | [] => []
  | k :: ks =>
    (if isEvent k && isNewProp pv nx k then
       [DomOp.addListener (eventTypeOf k) (lookupProp nx k)]
     else if isProperty k && isNewProp pv nx k then
       [DomOp.setAttr k (lookupProp nx k)]
     else []) ++ updateDomAdd pv nx ks

/-- `updateDom(dom, prevProps, nextProps)` as the ordered list of host
mutations it performs.  For a text node each loop inspects only the first
key and then `break`s, assigning `nodeValue`; for an element node the two
loops run in full. -/
def updateDom (isText : Bool) (pv nx : Props) : List DomOp :=
  (if isText then
     match keysOf pv with
     | [] => []
     | k :: _ => if isGoneProp nx k then [DomOp.setNodeValueNull] else []
   else updateDomRemove pv nx (keysOf pv))
  ++
  (if isText then
     match keysOf nx with
     | [] => []
     | k :: _ =>
       if isNewProp pv nx k then [DomOp.setNodeValue (lookupProp nx ("nodeValue"))]
       else []
   else updateDomAdd pv nx (keysOf nx))

/-- Effect tags produced by reconciliation and consumed by commit. -/
inductive ETag where
  | UPDATE
  | PLACEMENT
  | DELETION
deriving DecidableEq, Repr

/-- A declarative element (type plus props), as seen by `reconcileChildren`. -/
structure Elem where
  type : Ty
  props : Props
deriving DecidableEq, Repr

/-- An old-generation fiber as `reconcileChildren` reads it from the
alternate child chain: its type, props, host handle (a node id, `none`
when absent) and its possibly-stale effect tag from its own generation. -/
structure OFiber where
  type : Ty
  props : Props
  dom : Option Nat
  effectTag : Option ETag
deriving DecidableEq, Repr

/-- A work-in-progress fiber produced by `reconcileChildren`. -/
structure NFiber where
  type : Ty
  props : Props
  dom : Option Nat
  alternate : Option OFiber
  effectTag : ETag
deriving DecidableEq, Repr

/-- The `sameType` branch: reuse the old type and host handle, take the new
props, link `alternate`, tag `UPDATE`. -/
def updateFiber (o : OFiber) (e : Elem) : NFiber :=
  { type := o.type, props := e.props, dom := o.dom
    alternate := some o, effectTag := ETag.UPDATE }

/-- The `element && !sameType` branch: fresh fiber, no `dom`, no
`alternate`, tag `PLACEMENT`. -/
def placementFiber (e : Elem) : NFiber :=
  { type := e.type, props := e.props, dom := none
    alternate := none, effectTag := ETag.PLACEMENT }

/-- The `oldFiber && !sameType` branch: the old fiber is retagged
`DELETION` and pushed onto the pending-deletions list. -/
def deletionEntry (o : OFiber) : OFiber :=
  { o with effectTag := some ETag.DELETION }

/-- `reconcileChildren`, over the element array and the old sibling chain.
Returns the produced new child chain (in sibling order) and the deletions
pushed onto the pending-deletions list (in push order).  One iteration of
the source loop corresponds to consuming one head from either or both
lists; `sameType` is `oldFiber && element && oldFiber.type === element.type`. -/
def reconcileChildren : List Elem → List OFiber → List NFiber × List OFiber
  | [], [] => ([], [])
  | e :: es, [] =>
    let r := reconcileChildren es []
    (placementFiber e :: r.1, r.2)
  | [], o :: os =>
    let r := reconcileChildren [] os
    (r.1, deletionEntry o :: r.2)
  | e :: es, o :: os =>
    if o.type = e.type then
      let r := reconcileChildren es os
      (updateFiber o e :: r.1, r.2)
    else
      let r := reconcileChildren es os
      (placementFiber e :: r.1, deletionEntry o :: r.2)

/-- The declarative element that describes an old fiber unchanged: same
type, same props.  Used to state the no-op-stability property. -/
def elemOfFiber (o : OFiber) : Elem :=
  { type := o.type, props := o.props }

theorem lookupProp_cons (kv : String × Value) (p : Props) (k : String) :
    lookupProp (kv :: p) k = if kv.1 == k then some kv.2 else lookupProp p k := by
  by_cases h : kv.1 == k <;> simp [lookupProp, List.find?_cons, h]

theorem hasKey_of_mem_keys (p : Props) (k : String) (h : k ∈ keysOf p) :
    hasKey p k = true := by
  rcases (by simpa [keysOf] using h : ∃ v, (k, v) ∈ p) with ⟨v, hv⟩
  have hs : (p.find? (fun kv => kv.1 == k)).isSome := by
    rw [List.find?_isSome]
    exact ⟨(k, v), hv, by simp⟩
  simpa [hasKey, lookupProp] using hs

theorem isNewProp_self (p : Props) (k : String) : isNewProp p p k = false := by
  simp [isNewProp]

theorem updateDomRemove_self (p : Props) (ks : List String)
    (h : ∀ k ∈ ks, hasKey p k = true) : updateDomRemove p p ks = [] := by
  induction ks with
  | nil => rfl
  | cons k ks ih =>
    have hk : hasKey p k = true := h k (by simp)
    simp [updateDomRemove, isNewProp_self, isGoneProp, hk,
      ih (fun x hx => h x (by simp [hx]))]

theorem updateDomAdd_self (p : Props) (ks : List String) :
    updateDomAdd p p ks = [] := by
  induction ks with
  | nil => rfl
  | cons k ks ih => simp [updateDomAdd, isNewProp_self, ih]

/-- `updateDom` applied to unchanged props performs no host mutation. -/
theorem updateDom_self (isText : Bool) (p : Props) :
    updateDom isText p p = [] := by
  cases isText with
  | false =>
    simp [updateDom, updateDomAdd_self,
      updateDomRemove_self p (keysOf p) (fun k hk => hasKey_of_mem_keys p k hk)]
  | true =>
    cases hk : keysOf p with
    | nil => simp [updateDom, hk]
    | cons k ks =>
      have hmem : k ∈ keysOf p := by simp [hk]
      simp [updateDom, hk, isGoneProp, isNewProp_self, hasKey_of_mem_keys p k hmem]

/-- Claim C1: in a reconciliation step where the old fiber exists, the new
declarative child exists, and their types differ, `reconcileChildren`
produces exactly one new fiber at that position — a `PLACEMENT` fiber with
no host handle and no alternate, never an `UPDATE` — and appends exactly
one `DELETION` entry for the old fiber to the pending-deletions list. -/
theorem reconcile_type_change_replacement (e : Elem) (o : OFiber)
    (es : List Elem) (os : List OFiber) (h : o.type ≠ e.type) :
    reconcileChildren (e :: es) (o :: os) =
      (placementFiber e :: (reconcileChildren es os).1,
       deletionEntry o :: (reconcileChildren es os).2)
    ∧ (placementFiber e).effectTag = ETag.PLACEMENT
    ∧ (placementFiber e).dom = none
    ∧ (placementFiber e).alternate = none
    ∧ (placementFiber e).effectTag ≠ ETag.UPDATE
    ∧ (deletionEntry o).effectTag = some ETag.DELETION := by
  refine ⟨?_, rfl, rfl, rfl, by simp [placementFiber], rfl⟩
  simp [reconcileChildren, h]

theorem reconcile_type_change_replacement_witness :
    reconcileChildren [Elem.mk (Ty.str ("p")) []]
        [OFiber.mk (Ty.str ("div")) [] (some 1) (some ETag.PLACEMENT)] =
      (placementFiber (Elem.mk (Ty.str ("p")) []) ::
         (reconcileChildren [] []).1,
       deletionEntry (OFiber.mk (Ty.str ("div")) [] (some 1) (some ETag.PLACEMENT)) ::
         (reconcileChildren [] []).2)
    ∧ (placementFiber (Elem.mk (Ty.str ("p")) [])).effectTag = ETag.PLACEMENT
    ∧ (placementFiber (Elem.mk (Ty.str ("p")) [])).dom = none
    ∧ (placementFiber (Elem.mk (Ty.str ("p")) [])).alternate = none
    ∧ (placementFiber (Elem.mk (Ty.str ("p")) [])).effectTag ≠ ETag.UPDATE
    ∧ (deletionEntry (OFiber.mk (Ty.str ("div")) [] (some 1) (some ETag.PLACEMENT))).effectTag
        = some ETag.DELETION :=
  reconcile_type_change_replacement (Elem.mk (Ty.str ("p")) [])
    (OFiber.mk (Ty.str ("div")) [] (some 1) (some ETag.PLACEMENT)) [] [] (by decide)

/-- Claim C2: in a reconciliation step where the old fiber and the new
declarative child have the same type, the produced fiber carries the new
child's props, is tagged `UPDATE`, has `alternate` pointing at the old
fiber, and its `dom` is the identical host-handle instance as the old
fiber's `dom` (the field is copied, never reallocated). -/
theorem reconcile_same_type_update (e : Elem) (o : OFiber)
    (es : List Elem) (os : List OFiber) (h : o.type = e.type) :
    reconcileChildren (e :: es) (o :: os) =
      (updateFiber o e :: (reconcileChildren es os).1,
       (reconcileChildren es os).2)
    ∧ (updateFiber o e).props = e.props
    ∧ (updateFiber o e).effectTag = ETag.UPDATE
    ∧ (updateFiber o e).alternate = some o
    ∧ (updateFiber o e).dom = o.dom := by
  refine ⟨?_, rfl, rfl, rfl, rfl⟩
  simp [reconcileChildren, h]

theorem reconcile_same_type_update_witness :
    reconcileChildren [Elem.mk (Ty.str ("div")) [((("id"), Value.str ("b")))]]
        [OFiber.mk (Ty.str ("div")) [((("id"), Value.str ("a")))] (some 7) (some ETag.PLACEMENT)] =
      (updateFiber
          (OFiber.mk (Ty.str ("div")) [((("id"), Value.str ("a")))] (some 7) (some ETag.PLACEMENT))
          (Elem.mk (Ty.str ("div")) [((("id"), Value.str ("b")))]) ::
         (reconcileChildren [] []).1,
       (reconcileChildren [] []).2)
    ∧ (updateFiber
          (OFiber.mk (Ty.str ("div")) [((("id"), Value.str ("a")))] (some 7) (some ETag.PLACEMENT))
          (Elem.mk (Ty.str ("div")) [((("id"), Value.str ("b")))])).props
        = (Elem.mk (Ty.str ("div")) [((("id"), Value.str ("b")))]).props
    ∧ (updateFiber
          (OFiber.mk (Ty.str ("div")) [((("id"), Value.str ("a")))] (some 7) (some ETag.PLACEMENT))
          (Elem.mk (Ty.str ("div")) [((("id"), Value.str ("b")))])).effectTag = ETag.UPDATE
    ∧ (updateFiber
          (OFiber.mk (Ty.str ("div")) [((("id"), Value.str ("a")))] (some 7) (some ETag.PLACEMENT))
          (Elem.mk (Ty.str ("div")) [((("id"), Value.str ("b")))])).alternate
        = some (OFiber.mk (Ty.str ("div")) [((("id"), Value.str ("a")))] (some 7) (some ETag.PLACEMENT))
    ∧ (updateFiber
          (OFiber.mk (Ty.str ("div")) [((("id"), Value.str ("a")))] (some 7) (some ETag.PLACEMENT))
          (Elem.mk (Ty.str ("div")) [((("id"), Value.str ("b")))])).dom
        = (OFiber.mk (Ty.str ("div")) [((("id"), Value.str ("a")))] (some 7) (some ETag.PLACEMENT)).dom :=
  reconcile_same_type_update
    (Elem.mk (Ty.str ("div")) [((("id"), Value.str ("b")))])
    (OFiber.mk (Ty.str ("div")) [((("id"), Value.str ("a")))] (some 7) (some ETag.PLACEMENT))
    [] [] (by decide)

/-- Claim C9: reconciling children against elements identical to the
previous generation (same type and props at each position) produces only
`UPDATE` tags and no deletions; and committing such an update applies no
host mutation, because `updateDom` diffs the two prop objects key by key
and with every key unchanged it emits no operation at all. -/
theorem reconcile_noop_stability (os : List OFiber) :
    ((reconcileChildren (os.map elemOfFiber) os).1.all
        (fun f => f.effectTag == ETag.UPDATE)) = true
    ∧ (reconcileChildren (os.map elemOfFiber) os).2 = []
    ∧ ∀ (isText : Bool) (p : Props), updateDom isText p p = [] := by
  refine ⟨?_, ?_, fun isText p => updateDom_self isText p⟩
  · induction os with
    | nil => simp [reconcileChildren]
    | cons o os ih =>
      simp [reconcileChildren, elemOfFiber, updateFiber] at ih ⊢
      exact ih
  · induction os with
    | nil => simp [reconcileChildren]
    | cons o os ih =>
      simp [reconcileChildren, elemOfFiber] at ih ⊢
      exact ih

/-- A state-transition action passed to a `useState` setter: either a
replacement value or a pure function from old state to new state
(`isFnAction` distinguishes the two). -/
inductive Action (T : Type) where
  | val (t : T)
  | fn (f : T → T)

/-- The body of the action loop in `useState`:
`hook.state = isFnAction(action) ? action(hook.state) : action`. -/
def applyAction {T : Type} (s : T) : Action T → T
  | Action.val t => t
  | Action.fn f => f s

/-- A hook record `{ state, queue }` as stored on `fiber.hooks`. -/
structure Hook (T : Type) where
  state : T
  queue : List (Action T)

/-- `useState(initial)` for one hook slot: given the alternate fiber's hook
at the same index (`none` on first evaluation) and the initial value,
returns the hook record pushed onto `wipFiber.hooks` (fresh empty queue)
and the state value returned to the component.  The queued actions are
applied left-to-right (FIFO) starting from the recovered state. -/
def useState {T : Type} (oldHook : Option (Hook T)) (initial : T) : Hook T × T :=
  let base : T :=
    match oldHook with
    | some h => h.state
    | none => initial
  let actions : List (Action T) :=
    match oldHook with
    | some h => h.queue
    | none => []
  let st := actions.foldl applyAction base
  ({ state := st, queue := [] }, st)

/-- `hook.queue.push(action)`, the enqueue half of the setter. -/
def queuePush {T : Type} (h : Hook T) (a : Action T) : Hook T :=
  { h with queue := h.queue ++ [a] }

/-- Claim C3: with a single `useState` hook, the first evaluation (no
alternate hook) returns the initial value; a subsequent evaluation applies
all actions enqueued since the last evaluation to the recovered state in
FIFO order — a function action is applied to the accumulated value, a
plain action replaces it — so two enqueued pure increments make the next
evaluation return `initial + 2`. -/
theorem useState_hook_persistence :
    (∀ (initial : Int), (useState none initial).2 = initial)
    ∧ (∀ (initial : Int),
        (useState
          (some (queuePush
            (queuePush (useState (none : Option (Hook Int)) initial).1
              (Action.fn (fun c => c + 1)))
            (Action.fn (fun c => c + 1))))
          initial).2 = initial + 2)
    ∧ (∀ (s : Int) (f : Int → Int), applyAction s (Action.fn f) = f s)
    ∧ (∀ (s v : Int), applyAction s (Action.val v) = v)
    ∧ (∀ (s v : Int) (f : Int → Int) (q : List (Action Int)),
        (useState (some (Hook.mk s (Action.val v :: Action.fn f :: q))) s).2
          = q.foldl applyAction (f v)) := by
  refine ⟨fun initial => rfl, fun initial => ?_, fun s f => rfl, fun s v => rfl,
    fun s v f q => ?_⟩
  · show initial + 1 + 1 = initial + 2
    omega
  · simp [useState, applyAction]

/-- A root fiber as built by `render` and by the `useState` setter: the
host mount handle, the root props (which consist solely of the children
list), and the `alternate` chain.  `dom` and `props` are `Option` because
the setter reads them from `currentRoot` through optional chaining with
non-null assertions. -/
inductive RFiber where
  | mk (dom : Option Nat) (props : Option (List Elem)) (alternate : Option RFiber)

def RFiber.dom : RFiber → Option Nat
  | RFiber.mk d _ _ => d

def RFiber.props : RFiber → Option (List Elem)
  | RFiber.mk _ p _ => p

def RFiber.alternate : RFiber → Option RFiber
  | RFiber.mk _ _ a => a

/-- The module-level mutable scheduler state (`currentRoot`, `wipRoot`,
`nextUnitOfWork`, `deletions`) together with the pending-action queue of
the hook whose setter is being invoked. -/
structure EngineState where
  hookQueue : List (Action Int)
  currentRoot : Option RFiber
  wipRoot : Option RFiber
  nextUnitOfWork : Option RFiber
  deletions : List OFiber

/-- The body of the `useState` setter: push the action on the hook queue,
build a brand-new root from `currentRoot`'s dom and props with
`alternate = currentRoot`, make it both `wipRoot` and `nextUnitOfWork`,
and reset `deletions`. -/
def setState (a : Action Int) (st : EngineState) : EngineState :=
  let newRoot : RFiber :=
    RFiber.mk (st.currentRoot.bind RFiber.dom) (st.currentRoot.bind RFiber.props)
      st.currentRoot
  { hookQueue := st.hookQueue ++ [a]
    currentRoot := st.currentRoot
    wipRoot := some newRoot
    nextUnitOfWork := some newRoot
    deletions := [] }

/-- `render(element, container)`: build a fresh work-in-progress root over
the container whose sole child is the element, with `alternate` the last
committed root, reset `deletions`, and schedule it. -/
def render (element : Elem) (container : Nat) (st : EngineState) : EngineState :=
  let newRoot : RFiber := RFiber.mk (some container) (some [element]) st.currentRoot
  { hookQueue := st.hookQueue
    currentRoot := st.currentRoot
    wipRoot := some newRoot
    nextUnitOfWork := some newRoot
    deletions := [] }

/-- Claim C8: every setter invocation enqueues its action and replaces the
pending work-in-progress root with a brand-new root built from the last
committed root — same host mount handle, same props, `alternate` pointing
at the current root — resets the pending-deletions list and sets the new
root as the next unit of work; since `wipRoot` is overwritten
unconditionally, any in-flight not-yet-committed tree is discarded. -/
theorem setState_restarts_from_root (st : EngineState) (a : Action Int)
    (r : RFiber) (h : st.currentRoot = some r) :
    (setState a st).hookQueue = st.hookQueue ++ [a]
    ∧ (setState a st).wipRoot = some (RFiber.mk r.dom r.props (some r))
    ∧ (setState a st).nextUnitOfWork = (setState a st).wipRoot
    ∧ (setState a st).deletions = []
    ∧ (setState a st).currentRoot = st.currentRoot := by
  refine ⟨rfl, ?_, rfl, rfl, rfl⟩
  simp [setState, h]

theorem setState_restarts_from_root_witness :
    (setState (Action.val 5)
        (EngineState.mk [] (some (RFiber.mk (some 0) (some []) none))
          (some (RFiber.mk (some 9) (some []) none))
          (some (RFiber.mk (some 9) (some []) none)) [])).hookQueue
        = [] ++ [Action.val 5]
    ∧ (setState (Action.val 5)
        (EngineState.mk [] (some (RFiber.mk (some 0) (some []) none))
          (some (RFiber.mk (some 9) (some []) none))
          (some (RFiber.mk (some 9) (some []) none)) [])).wipRoot
        = some (RFiber.mk (RFiber.mk (some 0) (some []) none).dom
            (RFiber.mk (some 0) (some []) none).props
            (some (RFiber.mk (some 0) (some []) none)))
    ∧ (setState (Action.val 5)
        (EngineState.mk [] (some (RFiber.mk (some 0) (some []) none))
          (some (RFiber.mk (some 9) (some []) none))
          (some (RFiber.mk (some 9) (some []) none)) [])).nextUnitOfWork
        = (setState (Action.val 5)
            (EngineState.mk [] (some (RFiber.mk (some 0) (some []) none))
              (some (RFiber.mk (some 9) (some []) none))
              (some (RFiber.mk (some 9) (some []) none)) [])).wipRoot
    ∧ (setState (Action.val 5)
        (EngineState.mk [] (some (RFiber.mk (some 0) (some []) none))
          (some (RFiber.mk (some 9) (some []) none))
          (some (RFiber.mk (some 9) (some []) none)) [])).deletions = []
    ∧ (setState (Action.val 5)
        (EngineState.mk [] (some (RFiber.mk (some 0) (some []) none))
          (some (RFiber.mk (some 9) (some []) none))
          (some (RFiber.mk (some 9) (some []) none)) [])).currentRoot
        = (EngineState.mk [] (some (RFiber.mk (some 0) (some []) none))
            (some (RFiber.mk (some 9) (some []) none))
            (some (RFiber.mk (some 9) (some []) none)) []).currentRoot :=
  setState_restarts_from_root
    (EngineState.mk [] (some (RFiber.mk (some 0) (some []) none))
      (some (RFiber.mk (some 9) (some []) none))
      (some (RFiber.mk (some 9) (some []) none)) [])
    (Action.val 5) (RFiber.mk (some 0) (some []) none) rfl

/-- A mutation applied to the host tree by the commit phase. -/
inductive HostOp where
  | appendChild (parent child : Nat)
  | removeChild (parent child : Nat)
  | patch (node : Nat) (ops : List DomOp)
deriving DecidableEq, Repr

/-- A fiber as the commit phase sees it: an identity, the optional host
handle, the effect tag (stale tags from an earlier generation included,
since nothing ever clears the field), whether the handle is a text node,
the alternate's props and its own props (used by the `UPDATE` branch), and
the `child` / `sibling` pointers (`nil` = `undefined`). -/
inductive CTree where
  | nil
  | node (id : Nat) (dom : Option Nat) (effectTag : Option ETag) (isText : Bool)
      (alternateProps : Props) (props : Props) (child : CTree) (sibling : CTree)
deriving DecidableEq, Repr

/-- `commitDeletion(fiber, domParent)`: remove the fiber's host node from
the target parent, or recurse into the first child when the fiber owns no
host node; a fiber with neither does nothing. -/
def commitDeletion (domParent : Nat) : CTree → List HostOp
  | CTree.nil => []
  | CTree.node _ (some d) _ _ _ _ _ _ => [HostOp.removeChild domParent d]
  | CTree.node _ none _ _ _ _ child _ => commitDeletion domParent child

/-- `commitWork(fiber)` with the nearest host-owning ancestor's handle
passed explicitly (the source recovers it by climbing `parent` pointers;
for the child recursion it is this fiber's own handle when present, else
the inherited one, and for the sibling recursion it is unchanged).  After
the tag branch the source recurses unconditionally into `child` and
`sibling`, whatever the tag was. -/
def commitWork (domParent : Nat) : CTree → List HostOp
  | CTree.nil => []
  | CTree.node i dom tag isText aProps props child sibling =>
    (match tag, dom with
     | some ETag.PLACEMENT, some d => [HostOp.appendChild domParent d]
     | some ETag.UPDATE, some d => [HostOp.patch d (updateDom isText aProps props)]
     | some ETag.DELETION, _ =>
       commitDeletion domParent (CTree.node i dom tag isText aProps props child sibling)
     | _, _ => [])
    ++ commitWork (dom.getD domParent) child
    ++ commitWork domParent sibling

/-- Which fibers' effect tags the commit walk acts upon, in order: a
`(fiber id, tag)` pair is recorded whenever one of the three mutation
branches of `commitWork` fires (`PLACEMENT`/`UPDATE` require a host
handle, `DELETION` does not). -/
def commitActs : CTree → List (Nat × ETag)
  | CTree.nil => []
  | CTree.node i dom tag _ _ _ child sibling =>
    (match tag, dom with
     | some ETag.PLACEMENT, some _ => [(i, ETag.PLACEMENT)]
     | some ETag.UPDATE, some _ => [(i, ETag.UPDATE)]
     | some ETag.DELETION, _ => [(i, ETag.DELETION)]
     | _, _ => []) ++ commitActs child ++ commitActs sibling

/-- First-generation text fiber `"hello"` (host node 2), tagged
`PLACEMENT` by the first render and never retagged. -/
def textStale : CTree :=
  CTree.node 12 (some 2) (some ETag.PLACEMENT) true []
    [((("nodeValue"), Value.str ("hello")))] CTree.nil CTree.nil

/-- First-generation `p` host fiber (host node 1), tagged `PLACEMENT` by
the first render and never retagged. -/
def pStale : CTree :=
  CTree.node 11 (some 1) (some ETag.PLACEMENT) false [] [] textStale CTree.nil

/-- The first-generation component fiber (no host handle) that rendered
the `p` subtree, as committed by the first render: `commitWork` on it
appends host node 1 under the container (node 0) and node 2 under node 1. -/
def gen1Example : CTree :=
  CTree.node 10 none (some ETag.PLACEMENT) false [] [] pStale CTree.nil

/-- The same component fiber as it sits on the pending-deletions list of
the second render (its type no longer matches, so reconciliation retagged
it `DELETION`); its children keep their stale first-generation
`PLACEMENT` tags. -/
def delEntryExample : CTree :=
  CTree.node 10 none (some ETag.DELETION) false [] [] pStale CTree.nil

/-- A component fiber whose evaluated result was `null`: no host handle
and no child. -/
def nullResultExample : CTree :=
  CTree.node 20 none (some ETag.DELETION) false [] [] CTree.nil CTree.nil

/-- Claim C4, evaluated at the failing input.  The true parts hold:
deleting a component whose result was `null` performs zero host
mutations, and `commitDeletion` on a component resolving (through
host-handle-less fibers) to a single host fiber removes exactly that one
node.  But the claim's final clause fails: `commitRoot` processes a
deletion entry with `commitWork`, which after the removal recurses into
the deleted fiber's children and acts on their stale first-generation
`PLACEMENT` tags, re-appending the just-removed host node 1 to the live
container (node 0). -/
theorem commit_deletion_stale_reappend :
    commitDeletion 0 nullResultExample = []
    ∧ commitWork 0 nullResultExample = []
    ∧ commitDeletion 0 delEntryExample = [HostOp.removeChild 0 1]
    ∧ commitWork 0 delEntryExample =
        [HostOp.removeChild 0 1, HostOp.appendChild 0 1, HostOp.appendChild 1 2] := by
  refine ⟨rfl, rfl, rfl, ?_⟩
  rfl

/-- Claim C5, evaluated at the failing input: fiber 11's `PLACEMENT` tag
is acted upon by the first generation's commit pass, and — because old
fibers keep their tags and `commitWork` recurses into a deletion entry's
descendants — the very same tag of the very same (now committed-
generation) fiber is acted upon again while the second generation's
commit processes the deletion entry. -/
theorem effect_tag_stale_reconsumption :
    commitActs gen1Example = [(11, ETag.PLACEMENT), (12, ETag.PLACEMENT)]
    ∧ commitActs delEntryExample =
        [(10, ETag.DELETION), (11, ETag.PLACEMENT), (12, ETag.PLACEMENT)]
    ∧ (11, ETag.PLACEMENT) ∈ commitActs gen1Example
    ∧ (11, ETag.PLACEMENT) ∈ commitActs delEntryExample := by
  refine ⟨rfl, rfl, by decide, by decide⟩

/-- A node of the work-in-progress fiber tree as the scheduler traverses
it: an identity and the list of its children (the sibling chain of its
first child). -/
inductive VTree where
  | node (id : Nat) (children : List VTree)
deriving Repr

def VTree.id : VTree → Nat
  | VTree.node i _ => i

def VTree.children : VTree → List VTree
  | VTree.node _ cs => cs

mutual
/-- Depth-first preorder listing of a fiber tree: the fiber itself, then
its children left to right, recursively. -/
def preorder : VTree → List Nat
  | VTree.node i cs => i :: preorderL cs
/-- `preorder` over a sibling chain. -/
def preorderL : List VTree → List Nat
  | [] => []
  | t :: ts => preorder t ++ preorderL ts
end

mutual
/-- The number of fibers in a tree. -/
def size : VTree → Nat
  | VTree.node _ cs => 1 + sizeL cs
/-- The number of fibers in a sibling chain. -/
def sizeL : List VTree → Nat
  | [] => 0
  | t :: ts => size t + sizeL ts
end

/-- `performUnitOfWork` on the traversal position.  The position is the
zipper the `parent`/`sibling` pointers encode: the head list holds the
current fiber followed by its not-yet-visited siblings, and each deeper
list holds an ancestor's not-yet-visited siblings.  Processing a fiber
builds its child chain and makes the first child the next unit; a fiber
without children falls through to its sibling; an exhausted sibling chain
climbs to the nearest ancestor with a sibling (the recursive case); and
running out of fibers means the work is finished (`none`). -/
def performUnitOfWork : List (List VTree) → Option (VTree × List (List VTree))
  | [] => none
  | [] :: up => performUnitOfWork up
  | (t :: sibs) :: up => some (t, t.children :: sibs :: up)

/-- The fibers a traversal position has yet to visit, in visit order. -/
def flatPre (s : List (List VTree)) : List Nat :=
  preorderL s.flatten

/-- The render loop of one `workLoop` slice.  `deadline` is the stream of
`deadline.timeRemaining() < 1` readings, one consulted after each unit of
work (an exhausted stream yields); the loop runs while work remains and
the budget is not exhausted.  Returns the ids of the fibers processed in
this slice and the position saved for the next slice. -/
def workLoop : List Bool → List (List VTree) → List Nat × List (List VTree)
  | [], s =>
    match performUnitOfWork s with
    | none => ([], s)
    | some (t, s1) => ([t.id], s1)
  | y :: ys, s =>
    match performUnitOfWork s with
    | none => ([], s)
    | some (t, s1) =>
      if y then ([t.id], s1)
      else
        let r := workLoop ys s1
        (t.id :: r.1, r.2)

/-- `!nextUnitOfWork && wipRoot`: the commit pass runs at the end of a
slice exactly when no next unit of work remains. -/
def commitsAfterSlice (deadline : List Bool) (s : List (List VTree)) : Bool :=
  (performUnitOfWork (workLoop deadline s).2).isNone

/-- Repeated `workLoop` invocations (one per idle callback), each with its
own deadline stream; the position persists between slices. -/
def workLoopSlices : List (List Bool) → List (List VTree) → List Nat × List (List VTree)
  | [], s => ([], s)
  | ys :: oss, s =>
    let r := workLoop ys s
    let r2 := workLoopSlices oss r.2
    (r.1 ++ r2.1, r2.2)

/-- Uninterrupted iteration of `performUnitOfWork` with a fuel bound. -/
def runWork : Nat → List (List VTree) → List Nat
  | 0, _ => []
  | fuel + 1, s =>
    match performUnitOfWork s with
    | none => []
    | some (t, s1) => t.id :: runWork fuel s1

theorem preorderL_append (a b : List VTree) :
    preorderL (a ++ b) = preorderL a ++ preorderL b := by
  induction a with
  | nil => simp [preorderL]
  | cons t ts ih => simp [preorderL, ih]

mutual
theorem preorder_length : ∀ (t : VTree), (preorder t).length = size t
  | VTree.node i cs => by
    simp [preorder, size, preorderL_length cs]
    omega
theorem preorderL_length : ∀ (ts : List VTree), (preorderL ts).length = sizeL ts
  | [] => by simp [preorderL, sizeL]
  | t :: ts => by
    simp [preorderL, sizeL, preorder_length t, preorderL_length ts]
end

theorem performUnitOfWork_none (s : List (List VTree))
    (h : performUnitOfWork s = none) : flatPre s = [] := by
  induction s with
  | nil => rfl
  | cons l up ih =>
    cases l with
    | nil =>
      have := ih (by simpa [performUnitOfWork] using h)
      simpa [flatPre] using this
    | cons t sibs => simp [performUnitOfWork] at h

theorem performUnitOfWork_pending (s : List (List VTree))
    (h : flatPre s = []) : performUnitOfWork s = none := by
  induction s with
  | nil => rfl
  | cons l up ih =>
    cases l with
    | nil =>
      simp [performUnitOfWork]
      exact ih (by simpa [flatPre] using h)
    | cons t sibs =>
      exfalso
      cases t with
      | node i cs => simp [flatPre, preorderL, preorder] at h

theorem performUnitOfWork_step (s s1 : List (List VTree)) (t : VTree)
    (h : performUnitOfWork s = some (t, s1)) :
    flatPre s = t.id :: flatPre s1 := by
  induction s with
  | nil => simp [performUnitOfWork] at h
  | cons l up ih =>
    cases l with
    | nil =>
      have := ih (by simpa [performUnitOfWork] using h)
      simpa [flatPre] using this
    | cons u sibs =>
      cases t with
      | node i cs =>
        have hu : u = VTree.node i cs ∧ u.children :: sibs :: up = s1 := by
          simpa [performUnitOfWork] using h
        rcases hu with ⟨h1, h2⟩
        subst h1
        subst h2
        simp [flatPre, preorderL, preorder, preorderL_append, VTree.id, VTree.children]

theorem workLoop_decomposes (deadline : List Bool) (s : List (List VTree)) :
    (workLoop deadline s).1 ++ flatPre (workLoop deadline s).2 = flatPre s := by
  induction deadline generalizing s with
  | nil =>
    cases h : performUnitOfWork s with
    | none => simp [workLoop, h]
    | some r =>
      obtain ⟨t, s1⟩ := r
      have hstep := performUnitOfWork_step s s1 t h
      simp [workLoop, h, hstep]
  | cons y ys ih =>
    cases h : performUnitOfWork s with
    | none => simp [workLoop, h]
    | some r =>
      obtain ⟨t, s1⟩ := r
      have hstep := performUnitOfWork_step s s1 t h
      cases y with
      | true => simp [workLoop, h, hstep]
      | false => simp [workLoop, h, hstep, ih s1]

theorem workLoopSlices_decompose (oss : List (List Bool)) (s : List (List VTree)) :
    (workLoopSlices oss s).1 ++ flatPre (workLoopSlices oss s).2 = flatPre s := by
  induction oss generalizing s with
  | nil => simp [workLoopSlices]
  | cons ys oss ih =>
    simp only [workLoopSlices, List.append_assoc]
    rw [ih (workLoop ys s).2, workLoop_decomposes ys s]

theorem runWork_complete (fuel : Nat) (s : List (List VTree))
    (h : (flatPre s).length ≤ fuel) : runWork fuel s = flatPre s := by
  induction fuel generalizing s with
  | zero =>
    have hnil : flatPre s = [] := by
      cases hf : flatPre s with
      | nil => rfl
      | cons a l => rw [hf] at h; simp at h
    simp [runWork, hnil]
  | succ fuel ih =>
    cases hp : performUnitOfWork s with
    | none => simp [runWork, hp, performUnitOfWork_none s hp]
    | some r =>
      obtain ⟨t, s1⟩ := r
      have hstep := performUnitOfWork_step s s1 t hp
      have hlen : (flatPre s1).length ≤ fuel := by
        rw [hstep] at h
        simp at h
        omega
      simp [runWork, hp, hstep, ih s1 hlen]

theorem workLoop_progress (deadline : List Bool) (s : List (List VTree)) :
    min 1 (flatPre s).length ≤ (workLoop deadline s).1.length := by
  cases hp : performUnitOfWork s with
  | none =>
    have hnil := performUnitOfWork_none s hp
    simp [hnil]
  | some r =>
    obtain ⟨t, s1⟩ := r
    have hone : 1 ≤ (workLoop deadline s).1.length := by
      cases deadline with
      | nil => simp [workLoop, hp]
      | cons y ys =>
        cases y with
        | true => simp [workLoop, hp]
        | false => simp [workLoop, hp]
    exact le_trans (Nat.min_le_left 1 _) hone

theorem workLoopSlices_bound (oss : List (List Bool)) (s : List (List VTree)) :
    (flatPre (workLoopSlices oss s).2).length ≤ (flatPre s).length - oss.length := by
  induction oss generalizing s with
  | nil => simp [workLoopSlices]
  | cons ys oss ih =>
    have hdec := workLoop_decomposes ys s
    have hlen : (workLoop ys s).1.length + (flatPre (workLoop ys s).2).length
        = (flatPre s).length := by
      rw [← List.length_append, hdec]
    have hprog := workLoop_progress ys s
    have hrec := ih (workLoop ys s).2
    simp only [workLoopSlices, List.length_cons]
    rcases Nat.eq_zero_or_pos (flatPre s).length with h0 | h0
    · omega
    · have : min 1 (flatPre s).length = 1 := by omega
      omega

/-- Claim C6: iterating `performUnitOfWork` from the root visits every
fiber of a finite work-in-progress tree exactly once, in depth-first
preorder (`runWork` from the initial position produces exactly
`preorder t`, which lists each of the `size t` fibers once); every
`workLoop` slice, whatever its deadline stream, removes exactly the
fibers it visited from the front of the remaining preorder, so splitting
the iteration over any number of slices visits the same fibers in the
same order; and the commit pass runs at the end of a slice exactly when
no fiber remains to visit. -/
theorem scheduler_traversal_completeness (t : VTree) :
    runWork (size t) [[t]] = preorder t
    ∧ (preorder t).length = size t
    ∧ (∀ (deadline : List Bool) (s : List (List VTree)),
        (workLoop deadline s).1 ++ flatPre (workLoop deadline s).2 = flatPre s)
    ∧ (∀ (oss : List (List Bool)) (s : List (List VTree)),
        (workLoopSlices oss s).1 ++ flatPre (workLoopSlices oss s).2 = flatPre s)
    ∧ (∀ (deadline : List Bool) (s : List (List VTree)),
        commitsAfterSlice deadline s = (flatPre (workLoop deadline s).2).isEmpty) := by
  have hflat : flatPre [[t]] = preorder t := by
    simp [flatPre, preorderL]
  refine ⟨?_, preorder_length t, workLoop_decomposes, workLoopSlices_decompose,
    fun deadline s => ?_⟩
  · rw [← hflat]
    exact runWork_complete (size t) [[t]] (by rw [hflat, preorder_length t])
  · cases hp : performUnitOfWork (workLoop deadline s).2 with
    | none =>
      simp [commitsAfterSlice, hp, performUnitOfWork_none _ hp]
    | some r =>
      have hstep := performUnitOfWork_step _ r.2 r.1 (by simpa using hp)
      simp [commitsAfterSlice, hp, hstep]

/-- Claim C10: a `workLoop` slice that starts with a pending unit of work
processes at least one unit before any deadline reading can stop it (the
yield check follows the unit), so even a slice whose budget is already
exhausted makes strict progress; consequently the remaining work shrinks
by at least one fiber per slice, and after `size t` slices — even ones
whose deadline streams are empty, i.e. already expired — a tree of
`size t` fibers is fully processed and the commit condition holds. -/
theorem workLoop_progress_and_termination (t : VTree) :
    (∀ (deadline : List Bool) (s : List (List VTree)),
        min 1 (flatPre s).length ≤ (workLoop deadline s).1.length)
    ∧ (∀ (oss : List (List Bool)) (s : List (List VTree)),
        (flatPre (workLoopSlices oss s).2).length ≤ (flatPre s).length - oss.length)
    ∧ flatPre (workLoopSlices (List.replicate (size t) []) [[t]]).2 = []
    ∧ performUnitOfWork (workLoopSlices (List.replicate (size t) []) [[t]]).2 = none := by
  have hflat : flatPre [[t]] = preorder t := by
    simp [flatPre, preorderL]
  have hbound := workLoopSlices_bound (List.replicate (size t) []) [[t]]
  rw [hflat, preorder_length t, List.length_replicate] at hbound
  have hempty : flatPre (workLoopSlices (List.replicate (size t) []) [[t]]).2 = [] := by
    have : (flatPre (workLoopSlices (List.replicate (size t) []) [[t]]).2).length = 0 := by
      omega
    exact List.length_eq_zero.mp this
  exact ⟨workLoop_progress, workLoopSlices_bound, hempty,
    performUnitOfWork_pending _ hempty⟩

/-- A host-surface operation that could in principle occur while fibers
are processed: creating a detached node, mutating a node's
attributes/listeners/text, or attaching/detaching a node to/from a parent
(the operations `commitWork` performs). -/
inductive WalkOp where
  | createNode (node : Nat)
  | domMutation (node : Nat) (op : DomOp)
  | attach (parent child : Nat)
  | detach (parent child : Nat)
deriving DecidableEq, Repr

/-- `createDom(fiber)`: allocate a fresh host node (modelled by the next
fresh id); a text fiber gets a bare text node, an element fiber
additionally receives its initial props via `updateDom(dom, {}, props)` —
all on the freshly created, still detached node. -/
def createDom (fresh : Nat) (isText : Bool) (props : Props) : List WalkOp :=
  if isText then [WalkOp.createNode fresh]
  else WalkOp.createNode fresh ::
    (updateDom false [] props).map (fun op => WalkOp.domMutation fresh op)

/-- A work-in-progress fiber as the render walk processes it: whether it
is a function component, whether its host node would be a text node, its
props, its host handle (`some` when reused from the alternate by an
`UPDATE` pairing, `none` on fresh `PLACEMENT` fibers), and the `child` /
`sibling` pointers (`nil` = `undefined`). -/
inductive WTree where
  | nil
  | node (isFC : Bool) (isText : Bool) (props : Props) (dom : Option Nat)
      (child : WTree) (sibling : WTree)
deriving DecidableEq, Repr

/-- The host operations performed while `performUnitOfWork` walks a fiber
subtree, with `fresh` the next unused host-node id.  A function component
is only evaluated and reconciled (no host operation); a host/text fiber
gets a host node created by `createDom` exactly when it has none
(`updateHostComponent`); reconciliation itself touches no host node.
Returns the operations in order and the next fresh id. -/
def renderWalk (fresh : Nat) : WTree → List WalkOp × Nat
  | WTree.nil => ([], fresh)
  | WTree.node isFC isText props dom child sibling =>
    let own : List WalkOp × Nat :=
      if isFC then ([], fresh)
      else
        match dom with
        | some _ => ([], fresh)
        | none => (createDom fresh isText props, fresh + 1)
    let c := renderWalk own.2 child
    let s := renderWalk c.2 sibling
    (own.1 ++ c.1 ++ s.1, s.2)

/-- A render-phase operation is harmless for the mounted host tree when it
is not an attach/detach and only touches a node allocated during this
walk (id at least `fresh`; every node of the mounted tree has a smaller
id). -/
def walkOpSafe (fresh : Nat) : WalkOp → Bool
  | WalkOp.createNode n => Nat.ble fresh n
  | WalkOp.domMutation n _ => Nat.ble fresh n
  | WalkOp.attach _ _ => false
  | WalkOp.detach _ _ => false

theorem walkOpSafe_mono (n m : Nat) (op : WalkOp) (hnm : n ≤ m)
    (h : walkOpSafe m op = true) : walkOpSafe n op = true := by
  cases op with
  | createNode k =>
    simp [walkOpSafe, Nat.ble_eq] at h ⊢
    omega
  | domMutation k o =>
    simp [walkOpSafe, Nat.ble_eq] at h ⊢
    omega
  | attach p c => simp [walkOpSafe] at h
  | detach p c => simp [walkOpSafe] at h

theorem walkOps_mono (ops : List WalkOp) (n m : Nat) (hnm : n ≤ m)
    (h : ops.all (walkOpSafe m) = true) : ops.all (walkOpSafe n) = true := by
  rw [List.all_eq_true] at h ⊢
  intro op hop
  exact walkOpSafe_mono n m op hnm (h op hop)

theorem createDom_safe (fresh : Nat) (isText : Bool) (props : Props) :
    (createDom fresh isText props).all (walkOpSafe fresh) = true := by
  cases isText with
  | true => simp [createDom, walkOpSafe, Nat.ble_eq]
  | false =>
    simp [createDom, walkOpSafe, Nat.ble_eq, List.all_map, Function.comp]

/-- Claim C7: during the render walk no node of the mounted host tree is
touched: the walk performs no attach or detach at all (host nodes created
for `PLACEMENT` fibers stay detached until the commit pass), and every
host operation it does perform — node creation and the initial prop
patching inside `createDom` — targets a node allocated during this very
walk (id at least `fresh`), never a previously mounted node (all of which
have ids below `fresh`).  The fresh-id counter never decreases, so this
holds across the whole walk. -/
theorem render_walk_mount_isolation (fresh : Nat) (t : WTree) :
    ((renderWalk fresh t).1.all (walkOpSafe fresh)) = true
    ∧ fresh ≤ (renderWalk fresh t).2 := by
  induction t generalizing fresh with
  | nil => exact ⟨rfl, le_refl fresh⟩
  | node isFC isText props dom child sibling ihc ihs =>
    have hown : (if isFC then ([], fresh)
        else match dom with
          | some _ => (([] : List WalkOp), fresh)
          | none => (createDom fresh isText props, fresh + 1)).1.all (walkOpSafe fresh) = true
        ∧ fresh ≤ (if isFC then ([], fresh)
        else match dom with
          | some _ => (([] : List WalkOp), fresh)
          | none => (createDom fresh isText props, fresh + 1)).2 := by
      cases isFC with
      | true => exact ⟨rfl, le_refl fresh⟩
      | false =>
        cases dom with
        | some d => exact ⟨rfl, le_refl fresh⟩
        | none => exact ⟨createDom_safe fresh isText props, Nat.le_succ fresh⟩
    rcases hown with ⟨hsafe, hle⟩
    constructor
    · simp only [renderWalk, List.all_append, Bool.and_eq_true]
      exact ⟨⟨hsafe, walkOps_mono _ fresh _ hle (ihc _).1⟩,
        walkOps_mono _ fresh _ (le_trans hle (ihc _).2) (ihs _).1⟩
    · simp only [renderWalk]
      exact le_trans hle (le_trans (ihc _).2 (ihs _).2)

end CrudeReact
